import Mathlib

/-!
# Verification of the video-analyzer chunking / timecode / retry pipeline

Shallow embedding of the core logic of the repository:
  * `video_processor.py`   — segmentation of a video into fixed-duration chunks
  * `result_combiner.py`   — timecode parsing/formatting and key-frame JSON extraction
  * `gemini_analyzer.py` / `openrouter_analyzer.py` — retry-with-backoff policies
  * `send_video_to_gemini.py` — per-video orchestration and batch accounting

Durations are modelled as rationals (`ℚ`), exact stand-ins for the Python
floats; machine strings are modelled as `List Char` / `String`.
-/

namespace VideoAnalyzer

/-! ## Segmenter (`video_processor.py`, `VideoProcessor.split_video` /
`VideoProcessor.get_chunk_info`)

`split_video` computes
`num_chunks = int(duration // chunk) + (1 if duration % chunk > 0 else 0)`
and launches one ffmpeg extraction per index `i` with start `i * chunk`
and requested length `chunk`; ffmpeg's `-ss s -t c` contract extracts the
sub-range `[s, min (s + c) duration)` of the video.  For
`duration <= chunk` the video is returned whole, unsplit. -/

/-- Chunk count `int(duration // chunk) + (1 if duration % chunk > 0 else 0)` from
`split_video`.  Python's float `//` is `⌊d / c⌋` and `d % c = d - c * ⌊d / c⌋`
for a positive divisor. -/
def numChunks (d c : ℚ) : ℤ :=
  ⌊d / c⌋ + (if d - c * ⌊d / c⌋ > 0 then 1 else 0)

/-- The time range `[start, end)` of chunk `i`: ffmpeg is invoked with
`-ss (i * chunk) -t chunk`, which yields `[i*c, min ((i+1)*c) d)`. -/
def chunkRange (d c : ℚ) (i : ℕ) : ℚ × ℚ :=
  ((i : ℚ) * c, min (((i : ℚ) + 1) * c) d)

/-- The list of chunk time ranges produced by `split_video`: one range per
video when `d ≤ c` (no splitting), else `numChunks` ranges. -/
def splitRanges (d c : ℚ) : List (ℚ × ℚ) :=
  if d ≤ c then [(0, d)]
  else (List.range (numChunks d c).toNat).map (chunkRange d c)

/-- Chunk descriptor assembled by `VideoProcessor.get_chunk_info`. -/
structure ChunkInfo where
  index : ℕ
  total_chunks : ℕ
  duration : ℚ
  start_time_minutes : ℚ
  end_time_minutes : ℚ
  is_first : Bool
  is_last : Bool
  deriving Repr, DecidableEq

/-- Model of `get_chunk_info(chunk_path, chunk_index, total_chunks)`:
`chunkSeconds` is `self.chunk_duration_seconds`, `dur` the probed duration
of the chunk file. -/
def getChunkInfo (chunkSeconds dur : ℚ) (i n : ℕ) : ChunkInfo :=
  { index := i
    total_chunks := n
    duration := dur
    start_time_minutes := (i : ℚ) * (chunkSeconds / 60)
    end_time_minutes := (i : ℚ) * (chunkSeconds / 60) + dur / 60
    is_first := i == 0
    is_last := (i : ℤ) == (n : ℤ) - 1 }

/-! ## Timecode normalizer (`result_combiner.py`)

`_sanitize_timecode_for_ffmpeg`, `timecode_to_seconds`, `seconds_to_timecode`
are modelled over `List Char`.  Python's `int(float(p))` is modelled by an
exact decimal parser `intFloat?`: sign, integer digits, optional fraction,
optional exponent, truncated toward zero.  Scope notes: IEEE-754 rounding of
`float` is idealized as exact decimal arithmetic (it only diverges for
mantissas beyond 2^53); `inf`/`nan` literals — on which the Python code's
`int()` raises and the surrounding `except` yields 0 — are modelled as parse
failures, which yields the same 0; digit-group underscores are not
modelled. -/

/-- ASCII whitespace stripped by Python `str.strip()`. -/
def isPyWS (ch : Char) : Bool :=
  ch == ' ' || ch == '\t' || ch == '\n' || ch == '\r' || ch == '\x0b' || ch == '\x0c'

/-- Model of Python `str.strip()`. -/
def stripChars (s : List Char) : List Char :=
  ((s.dropWhile isPyWS).reverse.dropWhile isPyWS).reverse

/-- Python's `sep in s` substring test. -/
def containsSub (pat : List Char) : List Char → Bool
  | [] => pat.isEmpty
  | c :: rest => pat.isPrefixOf (c :: rest) || containsSub pat rest

/-- The part of `s` before the first occurrence of `pat`
(`s.split(pat)[0]` when `pat` occurs in `s`). -/
def takeBefore (pat : List Char) : List Char → List Char
  | [] => []
  | c :: rest =>
    if pat.isPrefixOf (c :: rest) then [] else c :: takeBefore pat rest

/-- The range separators of `_sanitize_timecode_for_ffmpeg`, in source
order: `["-", "–", "—", " to ", "→", ">>", "→ "]`. -/
def rangeSeps : List (List Char) :=
  [['-'], ['–'], ['—'], [' ', 't', 'o', ' '], ['→'], ['>', '>'], ['→', ' ']]

/-- Model of `ResultCombiner._sanitize_timecode_for_ffmpeg`: empty input becomes
`"00:00:00"`; otherwise the part before the first present range separator
(first separator in source order wins), stripped. -/
def sanitizeTimecode (t : List Char) : List Char :=
  if t.isEmpty then "00:00:00".toList
  else
    let t' := match rangeSeps.find? (fun sep => containsSub sep t) with
      | some sep => stripChars (takeBefore sep t)
      | none => t
    stripChars t'

/-- Model of `s.split(":")` for a single-character separator. -/
def splitOnChar (sep : Char) : List Char → List (List Char)
  | [] => [[]]
  | c :: rest =>
    let r := splitOnChar sep rest
    if c = sep then [] :: r else (c :: r.headD []) :: r.tail

/-- Decimal digit value of a character (code point 48 is the zero digit). -/
def digitVal? (ch : Char) : Option ℕ :=
  if 48 ≤ ch.toNat ∧ ch.toNat ≤ 57 then some (ch.toNat - 48) else none

def isDigitC (ch : Char) : Bool := (digitVal? ch).isSome

/-- Value of a digit string, most significant digit first. -/
def digitsVal (ds : List Char) : ℕ :=
  ds.foldl (fun a c => 10 * a + (digitVal? c).getD 0) 0

/-- Leading `-`/`+` sign of a float literal. -/
def parseSign : List Char → Bool × List Char
  | [] => (false, [])
  | c :: cs =>
    if c = '-' then (true, cs)
    else if c = '+' then (false, cs)
    else (false, c :: cs)

/-- Optional `.digits` fraction of a float literal: fraction digits and the
remaining input. -/
def parseFrac : List Char → List Char × List Char
  | [] => ([], [])
  | c :: cs =>
    if c = '.' then (cs.takeWhile isDigitC, cs.dropWhile isDigitC)
    else ([], c :: cs)

/-- Optional `e±digits` exponent of a float literal; `none` on trailing
junk, `some exponent` otherwise. -/
def parseExp : List Char → Option ℤ
  | [] => some 0
  | c :: cs =>
    if c = 'e' ∨ c = 'E' then
      let (eneg, r) := parseSign cs
      let ed := r.takeWhile isDigitC
      if ed.isEmpty then none
      else if (r.dropWhile isDigitC).isEmpty then
        some (if eneg then -(digitsVal ed : ℤ) else (digitsVal ed : ℤ))
      else none
    else none

/-- Truncation toward zero of `±num·10^exp10`. -/
def truncVal (neg : Bool) (num : ℕ) (exp10 : ℤ) : ℤ :=
  let mag : ℕ :=
    if 0 ≤ exp10 then num * 10 ^ exp10.toNat else num / 10 ^ (-exp10).toNat
  if neg then -(mag : ℤ) else (mag : ℤ)

/-- Python `int(float(s))` under exact decimal semantics: `none` models a
`ValueError` (or the `OverflowError`/`ValueError` of `int(inf)`/`int(nan)`),
`some z` the truncated value. -/
def intFloat? (s : List Char) : Option ℤ :=
  let sgn := parseSign (stripChars s)
  let ip := sgn.2.takeWhile isDigitC
  let fr := parseFrac (sgn.2.dropWhile isDigitC)
  if ip.isEmpty && fr.1.isEmpty then none
  else
    match parseExp fr.2 with
    | none => none
    | some e =>
      some (truncVal sgn.1 (digitsVal ip * 10 ^ fr.1.length + digitsVal fr.1)
        (e - (fr.1.length : ℤ)))

/-- Model of `ResultCombiner.timecode_to_seconds` over `List Char`: sanitize, split
on `:`; 3 fields are `h:m:s`, 2 fields are `m:s`, otherwise the first field
alone is a count of seconds; any failure in the `try` body yields 0. -/
def timecodeToSecondsL (tc : List Char) : ℤ :=
  let parts := splitOnChar ':' (sanitizeTimecode tc)
  let res : Option ℤ :=
    match parts with
    | [p1, p2, p3] =>
      match intFloat? p1, intFloat? p2, intFloat? p3 with
      | some h, some m, some s => some (h * 3600 + m * 60 + s)
      | _, _, _ => none
    | [p1, p2] =>
      match intFloat? p1, intFloat? p2 with
      | some m, some s => some (m * 60 + s)
      | _, _ => none
    | other => intFloat? (other.headD [])
  res.getD 0

/-- Decimal digit characters of `n`, most significant first (`repr(n)`). -/
def digitChar : ℕ → Char
  | 0 => '0'
  | 1 => '1'
  | 2 => '2'
  | 3 => '3'
  | 4 => '4'
  | 5 => '5'
  | 6 => '6'
  | 7 => '7'
  | 8 => '8'
  | _ => '9'

def natDigitsAux : ℕ → ℕ → List Char
  | 0, _ => []
  | fuel + 1, n =>
    if n < 10 then [digitChar n]
    else natDigitsAux fuel (n / 10) ++ [digitChar (n % 10)]

def natDigits (n : ℕ) : List Char := natDigitsAux (n + 1) n

/-- Python `f"{n:02d}"` for non-negative `n`: at least two digits,
zero-padded, never truncated. -/
def pad2 (n : ℕ) : List Char :=
  if n < 10 then '0' :: natDigits n else natDigits n

/-- Model of `ResultCombiner.seconds_to_timecode` over `List Char`:
`max(0, s)` rendered as zero-padded `hh:mm:ss`. -/
def secondsToTimecodeL (sec : ℤ) : List Char :=
  let s := (max 0 sec).toNat
  pad2 (s / 3600) ++ ':' :: pad2 (s % 3600 / 60) ++ ':' :: pad2 (s % 60)

/-- String-level `ResultCombiner.timecode_to_seconds`. -/
def timecode_to_seconds (tc : String) : ℤ := timecodeToSecondsL tc.toList

/-- String-level `ResultCombiner.seconds_to_timecode`. -/
def seconds_to_timecode (sec : ℤ) : String := String.mk (secondsToTimecodeL sec)

/-- The timecode rebasing in `process_single_video`
(`send_video_to_gemini.py` lines 149–150): chunk-relative timecode plus
chunk start offset, re-rendered as an absolute timecode. -/
def rebase (tc : String) (startOffsetSec : ℤ) : String :=
  seconds_to_timecode (timecode_to_seconds tc + startOffsetSec)

/-! ## Retry with backoff (`gemini_analyzer.py` / `openrouter_analyzer.py`,
`_retry_with_backoff`)

One attempt against the backend is modelled by its outcome at each attempt
index.  The Gemini adapter distinguishes exceptions by type
(`TooManyRequests`/`ResourceExhausted` vs. the rest); the OpenRouter
adapter catches every exception and classifies it by message content
(`"rate" in str(e).lower() or "429" in str(e)`), modelled as the Boolean
`isRateLimit`.  The jitter value `random.uniform(0.5, 1.5)` drawn before
the sleep after failed attempt `a` is supplied as an oracle `j a`; the
returned list holds the sleep durations actually performed. -/
inductive GeminiOutcome (α : Type) where
  | ok (v : α)
  | rateLimit
  | other
  deriving Repr, DecidableEq

inductive OROutcome (α : Type) where
  | ok (v : α)
  | err (isRateLimit : Bool)
  deriving Repr, DecidableEq

inductive RetryResult (α : Type) where
  | ok (v : α)
  | rateLimitRaised
  | otherRaised
  deriving Repr, DecidableEq

/-- Model of `GeminiAnalyzer._retry_with_backoff` from attempt `a` on: success
returns; a rate-limit exception at attempt `maxRetries` re-raises, at an
earlier attempt sleeps `2^a · j a` and retries; any other exception
re-raises at once.  (The loop reaches `a = maxRetries` exactly when
Python's `attempt == max_retries` fires, since `a` only counts up from 0.) -/
def geminiRetry {α : Type} (f : ℕ → GeminiOutcome α) (j : ℕ → ℚ)
    (maxRetries a : ℕ) : List ℚ × RetryResult α :=
  match f a with
  | .ok v => ([], .ok v)
  | .other => ([], .otherRaised)
  | .rateLimit =>
    if _h : maxRetries ≤ a then ([], .rateLimitRaised)
    else
      let r := geminiRetry f j maxRetries (a + 1)
      ((2 ^ a * j a) :: r.1, r.2)
termination_by maxRetries - a

/-- Model of `OpenRouterAnalyzer._retry_with_backoff` from attempt `a` on: success
returns; any exception at attempt `maxRetries` re-raises; an earlier
rate-limit-classified exception sleeps `2^a · j a` and retries; an earlier
other exception re-raises at once. -/
def openrouterRetry {α : Type} (f : ℕ → OROutcome α) (j : ℕ → ℚ)
    (maxRetries a : ℕ) : List ℚ × RetryResult α :=
  match f a with
  | .ok v => ([], .ok v)
  | .err rl =>
    if _h : maxRetries ≤ a then
      ([], if rl then .rateLimitRaised else .otherRaised)
    else if rl then
      let r := openrouterRetry f j maxRetries (a + 1)
      ((2 ^ a * j a) :: r.1, r.2)
    else ([], .otherRaised)
termination_by maxRetries - a

/-- Both call sites use the default `max_retries = 5` and start at
attempt 0. -/
def retryWithBackoffGemini {α : Type} (f : ℕ → GeminiOutcome α) (j : ℕ → ℚ) :
    List ℚ × RetryResult α :=
  geminiRetry f j 5 0

def retryWithBackoffOR {α : Type} (f : ℕ → OROutcome α) (j : ℕ → ℚ) :
    List ℚ × RetryResult α :=
  openrouterRetry f j 5 0

/-! ## Run orchestrator (`send_video_to_gemini.py`)

The body of `process_single_video`'s `try` block (segmentation, per-chunk
analysis, combining, persisting) either completes or raises; the outcome is
modelled as an `Except` value.  `process_single_video` catches every
exception at its boundary and returns `False`; `main` folds over the whole
list of videos, counting successes and failures. -/

/-- Model of `process_single_video`: `True` on completion, `False` when the body
raised (the `except Exception` branch). -/
def processSingleVideo (body : Except String Unit) : Bool :=
  match body with
  | .ok _ => true
  | .error _ => false

/-- One iteration of `main`'s loop: bump `successful_count` or
`failed_count`. -/
def countStep (acc : ℕ × ℕ) (body : Except String Unit) : ℕ × ℕ :=
  if processSingleVideo body then (acc.1 + 1, acc.2) else (acc.1, acc.2 + 1)

/-- Model of `main`'s batch loop over the videos' outcomes:
`(successful_count, failed_count)`. -/
def mainCounts (bodies : List (Except String Unit)) : ℕ × ℕ :=
  bodies.foldl countStep (0, 0)

/-! ## Aggregator/Combiner (`gemini_analyzer.py` `combine_analyses` and
step 3 of `process_single_video`)

The external backend's synthesis call (`model.generate_content` under the
retry wrapper) is modelled as an opaque function `synth`; the combine
prompt template (an XML file outside `src/`) is a parameter. -/

/-- Model of `str.replace(pat, repl)` — all non-overlapping occurrences, left to
right — by fuel (`fuel ≥ length` suffices since every step consumes a
character).  An empty pattern is never used by the code and is treated as
no-op. -/
def replaceAllAux (pat repl : List Char) : ℕ → List Char → List Char
  | 0, s => s
  | _ + 1, [] => []
  | fuel + 1, c :: rest =>
    if pat.isPrefixOf (c :: rest) ∧ pat ≠ [] then
      repl ++ replaceAllAux pat repl fuel (rest.drop (pat.length - 1))
    else c :: replaceAllAux pat repl fuel rest

def replaceAll (pat repl s : List Char) : List Char :=
  replaceAllAux pat repl s.length s

/-- Model of `_format_prompt` for the single `{chunk_analyses}` parameter of the
combine template. -/
def formatCombinePrompt (template text : String) : String :=
  String.mk (replaceAll "{chunk_analyses}".toList text.toList template.toList)

/-- The labelled concatenation of `combine_analyses`:
`"=== ЧАСТЬ i ===\n" + analysis + "\n\n"` for `i = 1, 2, ...`. -/
def chunkAnalysesText (analyses : List String) : String :=
  ((List.range analyses.length).zip analyses).foldl
    (fun acc p =>
      acc ++ "=== ЧАСТЬ " ++ toString (p.1 + 1) ++ " ===\n" ++ p.2 ++ "\n\n") ""

/-- Model of `GeminiAnalyzer.combine_analyses`: format the combine prompt with the
labelled document and submit it to the backend once. -/
def combine_analyses (synth : String → String) (template : String)
    (analyses : List String) : String :=
  synth (formatCombinePrompt template (chunkAnalysesText analyses))

/-- Step 3 of `process_single_video`: more than one chunk analysis goes
through `combine_analyses` (one synthesis call); a single analysis is used
as-is (no call).  Returns the final text and the number of synthesis
calls made. -/
def finalAnalysisStep (synth : String → String) (template : String)
    (chunkAnalyses : List String) : String × ℕ :=
  if 1 < chunkAnalyses.length then
    (combine_analyses synth template chunkAnalyses, 1)
  else (chunkAnalyses.headD "", 0)

/-! ## Structured-output extractor (`result_combiner.py`,
`ResultCombiner.extract_key_frames_json`)

JSON values are modelled by the AST `J`; numbers keep their parsed sign,
mantissa digits and decimal exponent (their numeric value is irrelevant
here).  `loadsJ` models `json.loads` under the `json` module's strict
grammar: objects, arrays, strings with the single-character escapes and
with raw control characters below 0x20 rejected (strict mode), numbers
without leading zeros, `true`/`false`/`null`, with nothing but whitespace
allowed after the document.  Out of scope (unused by every input
considered): `\uXXXX` escapes and the `NaN`/`Infinity` extensions, which
produce values no theorem here quantifies over.

The two fence patterns and the brace scan are modelled by their
first-occurrence semantics: pattern 1 matches from the first
(case-insensitive) `` ```json `` to the first following `` ``` ``;
pattern 2 from the first `` ``` `` to the next; the brace scan yields the
non-overlapping minimal `{...}` spans left to right, as `re.findall`
does with a lazy quantifier. -/
inductive J where
  | null
  | bool (b : Bool)
  | num (neg : Bool) (mant : ℕ) (exp10 : ℤ)
  | str (s : List Char)
  | arr (elems : List J)
  | obj (kvs : List (List Char × J))

/-- JSON whitespace accepted by `json.loads`. -/
def skipWs (cs : List Char) : List Char :=
  cs.dropWhile fun c => c == ' ' || c == '\t' || c == '\n' || c == '\r'

/-- Body of a JSON string after the opening quote: contents and the rest
after the closing quote.  A raw control character (code point below 0x20)
fails the parse, as `json.loads` in its default strict mode rejects it
with "Invalid control character". -/
def parseStr : List Char → Option (List Char × List Char)
  | [] => none
  | c :: rest =>
    if c = '"' then some ([], rest)
    else if c = '\\' then
      match rest with
      | [] => none
      | e :: r2 =>
        let m : Option Char :=
          if e = '"' then some '"'
          else if e = '\\' then some '\\'
          else if e = '/' then some '/'
          else if e = 'b' then some '\x08'
          else if e = 'f' then some '\x0c'
          else if e = 'n' then some '\n'
          else if e = 'r' then some '\r'
          else if e = 't' then some '\t'
          else none
        match m with
        | none => none
        | some ch => (parseStr r2).map fun p => (ch :: p.1, p.2)
    else if c.toNat < 32 then none
    else (parseStr rest).map fun p => (c :: p.1, p.2)

/-- Strict JSON number: `-? (0 | [1-9][0-9]*) (. [0-9]+)? ([eE][+-]?[0-9]+)?`;
unconsumable tails (a bare `.` or `e`) are left in the rest, as the
`json` module's regex does. -/
def parseNum (cs : List Char) : Option (J × List Char) :=
  let sgn := match cs with
    | '-' :: r => (true, r)
    | _ => (false, cs)
  match sgn.2 with
  | [] => none
  | c :: cs1 =>
    if isDigitC c then
      let ipRest : List Char × List Char :=
        if c = '0' then (['0'], cs1)
        else ((c :: cs1).takeWhile isDigitC, (c :: cs1).dropWhile isDigitC)
      let frRest : List Char × List Char :=
        match ipRest.2 with
        | '.' :: r =>
          if (r.takeWhile isDigitC).isEmpty then ([], ipRest.2)
          else (r.takeWhile isDigitC, r.dropWhile isDigitC)
        | _ => ([], ipRest.2)
      let expRest : ℤ × List Char :=
        match frRest.2 with
        | e :: r =>
          if e = 'e' ∨ e = 'E' then
            let es : Bool × List Char :=
              match r with
              | '+' :: rr => (false, rr)
              | '-' :: rr => (true, rr)
              | _ => (false, r)
            let ed := es.2.takeWhile isDigitC
            if ed.isEmpty then (0, frRest.2)
            else ((if es.1 then -(digitsVal ed : ℤ) else (digitsVal ed : ℤ)),
              es.2.dropWhile isDigitC)
          else (0, frRest.2)
        | [] => (0, frRest.2)
      some (.num sgn.1 (digitsVal (ipRest.1 ++ frRest.1))
        (expRest.1 - (frRest.1.length : ℤ)), expRest.2)
    else none

/-- Item loop of a non-empty JSON array, given the value parser of the
enclosing nesting level. -/
def parseArrItems (pv : List Char → Option (J × List Char)) :
    ℕ → List Char → Option (List J × List Char)
  | 0, _ => none
  | lf + 1, cs =>
    match pv cs with
    | none => none
    | some (v, r1) =>
      match skipWs r1 with
      | ',' :: r2 => (parseArrItems pv lf r2).map fun p => (v :: p.1, p.2)
      | ']' :: r2 => some ([v], r2)
      | _ => none

/-- Member loop of a non-empty JSON object. -/
def parseObjItems (pv : List Char → Option (J × List Char)) :
    ℕ → List Char → Option (List (List Char × J) × List Char)
  | 0, _ => none
  | lf + 1, cs =>
    match skipWs cs with
    | '"' :: rest =>
      match parseStr rest with
      | none => none
      | some (key, r1) =>
        match skipWs r1 with
        | ':' :: r2 =>
          match pv r2 with
          | none => none
          | some (v, r3) =>
            match skipWs r3 with
            | ',' :: r4 =>
              (parseObjItems pv lf r4).map fun p => ((key, v) :: p.1, p.2)
            | '}' :: r4 => some ([(key, v)], r4)
            | _ => none
        | _ => none
    | _ => none

/-- JSON value parser; the fuel bounds the nesting depth. -/
def parseVal : ℕ → List Char → Option (J × List Char)
  | 0, _ => none
  | fuel + 1, cs0 =>
    match skipWs cs0 with
    | [] => none
    | c :: rest =>
      if c = '{' then
        match skipWs rest with
        | '}' :: r2 => some (.obj [], r2)
        | r1 => (parseObjItems (parseVal fuel) (r1.length + 1) r1).map
            fun p => (.obj p.1, p.2)
      else if c = '[' then
        match skipWs rest with
        | ']' :: r2 => some (.arr [], r2)
        | r1 => (parseArrItems (parseVal fuel) (r1.length + 1) r1).map
            fun p => (.arr p.1, p.2)
      else if c = '"' then
        (parseStr rest).map fun p => (.str p.1, p.2)
      else if ['t', 'r', 'u', 'e'].isPrefixOf (c :: rest) then
        some (.bool true, (c :: rest).drop 4)
      else if ['f', 'a', 'l', 's', 'e'].isPrefixOf (c :: rest) then
        some (.bool false, (c :: rest).drop 5)
      else if ['n', 'u', 'l', 'l'].isPrefixOf (c :: rest) then
        some (.null, (c :: rest).drop 4)
      else parseNum (c :: rest)

/-- Model of `json.loads`: parse one document, allow only whitespace after. -/
def loadsJ (cs : List Char) : Option J :=
  match parseVal (cs.length + 1) cs with
  | none => none
  | some (v, rest) => if (skipWs rest).isEmpty then some v else none

/-- Case-insensitive character match for the `re.IGNORECASE` fence pattern;
only the letters of `json` are affected. -/
def ciChar (p c : Char) : Bool :=
  p == c || (p == 'j' && c == 'J') || (p == 's' && c == 'S') ||
    (p == 'o' && c == 'O') || (p == 'n' && c == 'N')

def ciStartsWith : List Char → List Char → Bool
  | [], _ => true
  | _ :: _, [] => false
  | p :: ps, c :: cs => ciChar p c && ciStartsWith ps cs

/-- Rest of the input after the first case-insensitive occurrence of `pat`. -/
def splitAtFirstCI (pat : List Char) : List Char → Option (List Char)
  | [] => if pat.isEmpty then some [] else none
  | c :: rest =>
    if ciStartsWith pat (c :: rest) then some ((c :: rest).drop pat.length)
    else splitAtFirstCI pat rest

/-- Input split at the first (case-sensitive) occurrence of `pat`:
the part before it and the part after it. -/
def takeUntil (pat : List Char) : List Char → Option (List Char × List Char)
  | [] => if pat.isEmpty then some ([], []) else none
  | c :: rest =>
    if pat.isPrefixOf (c :: rest) then some ([], (c :: rest).drop pat.length)
    else (takeUntil pat rest).map fun p => (c :: p.1, p.2)

/-- Stripped capture of `` ```json\s*([\s\S]*?)\s*``` `` (IGNORECASE):
text between the first case-insensitive `` ```json `` and the next
`` ``` ``. -/
def fence1Candidate (text : List Char) : Option (List Char) :=
  match splitAtFirstCI "```json".toList text with
  | none => none
  | some rest => (takeUntil "```".toList rest).map fun p => stripChars p.1

/-- Stripped capture of `` ```\s*([\s\S]*?)\s*``` ``: text between the
first `` ``` `` and the next one. -/
def fence2Candidate (text : List Char) : Option (List Char) :=
  match takeUntil "```".toList text with
  | none => none
  | some p => (takeUntil "```".toList p.2).map fun q => stripChars q.1

/-- Non-overlapping minimal `{...}` spans, left to right
(`re.findall(r"\{[\s\S]*?\}", text)`). -/
def braceSpans : ℕ → List Char → List (List Char)
  | 0, _ => []
  | fuel + 1, cs =>
    match takeUntil ['{'] cs with
    | none => []
    | some p =>
      match takeUntil ['}'] p.2 with
      | none => []
      | some q => ('{' :: (q.1 ++ ['}'])) :: braceSpans fuel q.2

/-- Decode one candidate and keep it only when it is a mapping containing
the key `key_frames` (the value's type is not inspected — this is the
`isinstance(data, dict) and "key_frames" in data` test). -/
def checkCandidate (cand : List Char) : Option J :=
  match loadsJ cand with
  | some (J.obj kvs) =>
    if kvs.any fun kv => kv.1 == "key_frames".toList then some (J.obj kvs)
    else none
  | _ => none

/-- Brace-scan fallback: try each span containing the substring
`key_frames`, first decodable dict-with-key wins. -/
def bracesAttempt : List (List Char) → Option J
  | [] => none
  | b :: rest =>
    if containsSub "key_frames".toList b then
      match checkCandidate b with
      | some j => some j
      | none => bracesAttempt rest
    else bracesAttempt rest

/-- One fence-pattern attempt: no match contributes nothing; a match's
stripped capture goes through decode-and-check. -/
def fenceAttempt (cand? : Option (List Char)) : Option J :=
  match cand? with
  | some cand => checkCandidate cand
  | none => none

/-- Model of `ResultCombiner.extract_key_frames_json`: the two fence patterns in
order, then the brace scan; decode failures fall through to the next
strategy; `none` when nothing matches. -/
def extractKeyFramesJson (text : String) : Option J :=
  let t := text.toList
  match fenceAttempt (fence1Candidate t) with
  | some j => some j
  | none =>
    match fenceAttempt (fence2Candidate t) with
    | some j => some j
    | none => bracesAttempt (braceSpans t.length t)

/-- Value stored under `key_frames` (last occurrence, as a Python dict
keeps the last duplicate key). -/
def J.keyFramesValue? : J → Option J
  | .obj kvs =>
    ((kvs.reverse.find? fun kv => kv.1 == "key_frames".toList).map fun kv => kv.2)
  | _ => none

def J.isArr : J → Bool
  | .arr _ => true
  | _ => false

/-! ## Theorems -/

/-! Arithmetic facts about `numChunks`. -/
theorem numChunks_eq_ceil {d c : ℚ} (hc : 0 < c) : numChunks d c = ⌈d / c⌉ := by
  unfold numChunks
  rcases eq_or_lt_of_le (Int.floor_le (d / c)) with h | h
  · have h1 : ((⌊d / c⌋ : ℤ) : ℚ) = d / c := h
    have hcd : c * (d / c) = d := by field_simp
    have hrem : d - c * ⌊d / c⌋ = 0 := by rw [h1, hcd]; ring
    rw [hrem, if_neg (lt_irrefl 0), add_zero, ← h1]
    simp
  · have hrem : d - c * ⌊d / c⌋ > 0 := by
      have h2 : c * (⌊d / c⌋ : ℚ) < c * (d / c) := by
        exact (mul_lt_mul_left hc).mpr h
      have h3 : c * (d / c) = d := by field_simp
      linarith
    rw [if_pos hrem]
    have hceil : ⌈d / c⌉ = ⌊d / c⌋ + 1 := by
      apply le_antisymm
      · apply Int.ceil_le.mpr
        push_cast
        exact le_of_lt (Int.lt_floor_add_one (d / c))
      · apply Int.add_one_le_iff.mpr
        exact Int.lt_ceil.mpr h
    omega

theorem numChunks_pos {d c : ℚ} (hc : 0 < c) (hd : 0 < d) : 0 < numChunks d c := by
  rw [numChunks_eq_ceil hc]
  exact Int.ceil_pos.mpr (div_pos hd hc)

/-- Bounds on the chunk count `n = numChunks d c` when splitting is needed:
`(n-1)·c < d ≤ n·c` and `2 ≤ n`. -/
theorem numChunks_bounds {d c : ℚ} (hc : 0 < c) (hcd : c < d) :
    (((numChunks d c).toNat : ℚ) - 1) * c < d ∧
    d ≤ ((numChunks d c).toNat : ℚ) * c ∧ 2 ≤ (numChunks d c).toNat := by
  have hd : 0 < d := lt_trans hc hcd
  have hceil := @numChunks_eq_ceil d c hc
  have hpos : 0 < numChunks d c := numChunks_pos hc hd
  have htn : (((numChunks d c).toNat : ℤ) : ℚ) = (⌈d / c⌉ : ℚ) := by
    rw [Int.toNat_of_nonneg hpos.le, hceil]
  refine ⟨?_, ?_, ?_⟩
  · have h1 : (⌈d / c⌉ : ℚ) < d / c + 1 := Int.ceil_lt_add_one (d / c)
    have h2 : (((numChunks d c).toNat : ℚ)) - 1 < d / c := by
      push_cast at htn ⊢
      linarith
    calc (((numChunks d c).toNat : ℚ) - 1) * c < (d / c) * c :=
          (mul_lt_mul_right hc).mpr h2
      _ = d := by field_simp
  · have h1 : d / c ≤ (⌈d / c⌉ : ℚ) := Int.le_ceil (d / c)
    have h2 : d / c ≤ ((numChunks d c).toNat : ℚ) := by
      push_cast at htn ⊢
      linarith
    calc d = (d / c) * c := by field_simp
      _ ≤ ((numChunks d c).toNat : ℚ) * c := (mul_le_mul_right hc).mpr h2
  · have h1 : (1 : ℚ) < d / c := (one_lt_div hc).mpr hcd
    have h2 : (1 : ℤ) < ⌈d / c⌉ := by
      rw [Int.lt_ceil]
      exact_mod_cast h1
    omega

/-- C1: for `0 < c < d`, `split_video` produces exactly `⌈d/c⌉` chunk ranges;
chunk `i` starts at `i·c`; consecutive ranges are contiguous; distinct ranges
do not overlap; the first range starts at `0`, the last ends at `d`; every
range is nonempty; the last range's length is the remainder `d - (n-1)·c`;
and every instant of `[0, d)` lies in exactly one range. -/
theorem split_video_tiling (d c : ℚ) (hc : 0 < c) (hcd : c < d) :
    splitRanges d c = (List.range (numChunks d c).toNat).map (chunkRange d c) ∧
    ((splitRanges d c).length : ℤ) = ⌈d / c⌉ ∧
    (∀ i : ℕ, (chunkRange d c i).1 = (i : ℚ) * c) ∧
    (chunkRange d c 0).1 = 0 ∧
    (∀ i : ℕ, i + 1 < (numChunks d c).toNat →
      (chunkRange d c i).2 = (chunkRange d c (i + 1)).1) ∧
    (∀ i j : ℕ, i < j → j < (numChunks d c).toNat →
      (chunkRange d c i).2 ≤ (chunkRange d c j).1) ∧
    (chunkRange d c ((numChunks d c).toNat - 1)).2 = d ∧
    (∀ i : ℕ, i < (numChunks d c).toNat →
      (chunkRange d c i).1 < (chunkRange d c i).2) ∧
    (chunkRange d c ((numChunks d c).toNat - 1)).2 -
        (chunkRange d c ((numChunks d c).toNat - 1)).1 =
      d - (((numChunks d c).toNat : ℚ) - 1) * c ∧
    (∀ t : ℚ, 0 ≤ t → t < d → ∃ i : ℕ, i < (numChunks d c).toNat ∧
      (chunkRange d c i).1 ≤ t ∧ t < (chunkRange d c i).2) ∧
    (∀ t : ℚ, ∀ i j : ℕ,
      (chunkRange d c i).1 ≤ t → t < (chunkRange d c i).2 →
      (chunkRange d c j).1 ≤ t → t < (chunkRange d c j).2 → i = j) := by
  have hd : 0 < d := lt_trans hc hcd
  obtain ⟨hlow, hhigh, hn2⟩ := numChunks_bounds hc hcd
  have hlist : splitRanges d c =
      (List.range (numChunks d c).toNat).map (chunkRange d c) := by
    unfold splitRanges
    rw [if_neg (not_le.mpr hcd)]
  -- the end of chunk `i` equals `(i+1)·c` whenever another chunk follows
  have hmid : ∀ i : ℕ, i + 1 < (numChunks d c).toNat →
      (chunkRange d c i).2 = ((i : ℚ) + 1) * c := by
    intro i hi
    have h1 : (i : ℚ) + 1 ≤ ((numChunks d c).toNat : ℚ) - 1 := by
      have : (i : ℕ) + 1 ≤ (numChunks d c).toNat - 1 := by omega
      have h2 : ((i + 1 : ℕ) : ℚ) ≤ (((numChunks d c).toNat - 1 : ℕ) : ℚ) := by
        exact_mod_cast this
      push_cast [Nat.cast_sub (by omega : 1 ≤ (numChunks d c).toNat)] at h2
      linarith
    have h2 : ((i : ℚ) + 1) * c < d := by
      calc ((i : ℚ) + 1) * c ≤ (((numChunks d c).toNat : ℚ) - 1) * c :=
            (mul_le_mul_right hc).mpr h1
        _ < d := hlow
    simp only [chunkRange]
    exact min_eq_left h2.le
  -- nonoverlap: the end of chunk `i` is at most the start of chunk `j > i`
  have hsep : ∀ i j : ℕ, i < j → j < (numChunks d c).toNat →
      (chunkRange d c i).2 ≤ (chunkRange d c j).1 := by
    intro i j hij _
    have h1 : ((i : ℚ) + 1) * c ≤ (j : ℚ) * c := by
      have : ((i : ℚ) + 1) ≤ (j : ℚ) := by exact_mod_cast hij
      exact (mul_le_mul_right hc).mpr this
    simp only [chunkRange]
    exact le_trans (min_le_left _ _) h1
  have hlast : (chunkRange d c ((numChunks d c).toNat - 1)).2 = d := by
    simp only [chunkRange]
    have h1 : ((((numChunks d c).toNat - 1 : ℕ) : ℚ) + 1) =
        ((numChunks d c).toNat : ℚ) := by
      push_cast [Nat.cast_sub (by omega : 1 ≤ (numChunks d c).toNat)]
      ring
    rw [h1]
    exact min_eq_right hhigh
  have hstartlt : ∀ i : ℕ, i < (numChunks d c).toNat → (i : ℚ) * c < d := by
    intro i hi
    have h1 : (i : ℚ) ≤ ((numChunks d c).toNat : ℚ) - 1 := by
      have h0 : (i : ℕ) ≤ (numChunks d c).toNat - 1 := by omega
      have h2 : ((i : ℕ) : ℚ) ≤ (((numChunks d c).toNat - 1 : ℕ) : ℚ) := by
        exact_mod_cast h0
      push_cast [Nat.cast_sub (by omega : 1 ≤ (numChunks d c).toNat)] at h2
      linarith
    calc (i : ℚ) * c ≤ (((numChunks d c).toNat : ℚ) - 1) * c :=
          (mul_le_mul_right hc).mpr h1
      _ < d := hlow
  refine ⟨hlist, ?_, fun i => rfl, by simp [chunkRange], ?_, hsep, hlast, ?_, ?_, ?_, ?_⟩
  · rw [hlist]
    simp only [List.length_map, List.length_range]
    rw [Int.toNat_of_nonneg (numChunks_pos hc hd).le, numChunks_eq_ceil hc]
  · intro i hi
    rw [hmid i hi]
    simp only [chunkRange]
    push_cast
    ring
  · intro i hi
    simp only [chunkRange]
    refine lt_min ?_ (hstartlt i hi)
    have : (i : ℚ) < (i : ℚ) + 1 := by linarith
    exact (mul_lt_mul_right hc).mpr this
  · rw [hlast]
    simp only [chunkRange]
    rw [Nat.cast_sub (by omega : 1 ≤ (numChunks d c).toNat)]
    push_cast
    ring
  · intro t ht htd
    refine ⟨⌊t / c⌋.toNat, ?_, ?_, ?_⟩
    · have h1 : t / c < ((numChunks d c).toNat : ℚ) := by
        calc t / c < d / c := (div_lt_div_iff_of_pos_right hc).mpr htd
          _ ≤ ((numChunks d c).toNat : ℚ) := by
              rw [div_le_iff₀ hc]
              exact hhigh
      have h2 : (⌊t / c⌋ : ℚ) < ((numChunks d c).toNat : ℚ) :=
        lt_of_le_of_lt (Int.floor_le _) h1
      have h3 : ⌊t / c⌋ < ((numChunks d c).toNat : ℤ) := by exact_mod_cast h2
      omega
    · simp only [chunkRange]
      have h0 : 0 ≤ ⌊t / c⌋ := Int.floor_nonneg.mpr (div_nonneg ht hc.le)
      have h1 : ((⌊t / c⌋.toNat : ℚ)) ≤ t / c := by
        have h2 := Int.floor_le (t / c)
        have h3 : ((⌊t / c⌋ : ℤ) : ℚ) = ((⌊t / c⌋.toNat : ℕ) : ℚ) := by
          exact_mod_cast (Int.toNat_of_nonneg h0).symm
        linarith
      calc (⌊t / c⌋.toNat : ℚ) * c ≤ (t / c) * c := (mul_le_mul_right hc).mpr h1
        _ = t := by field_simp
    · simp only [chunkRange]
      refine lt_min ?_ htd
      have h0 : 0 ≤ ⌊t / c⌋ := Int.floor_nonneg.mpr (div_nonneg ht hc.le)
      have h1 : t / c < (⌊t / c⌋.toNat : ℚ) + 1 := by
        have h2 : t / c < (⌊t / c⌋ : ℚ) + 1 := Int.lt_floor_add_one _
        have h3 : ((⌊t / c⌋ : ℤ) : ℚ) = ((⌊t / c⌋.toNat : ℕ) : ℚ) := by
          exact_mod_cast (Int.toNat_of_nonneg h0).symm
        linarith
      calc t = (t / c) * c := by field_simp
        _ < ((⌊t / c⌋.toNat : ℚ) + 1) * c := (mul_lt_mul_right hc).mpr h1
  · intro t i j hi1 hi2 hj1 hj2
    by_contra hne
    rcases lt_or_gt_of_ne hne with h | h
    · have : ((i : ℚ) + 1) * c ≤ (j : ℚ) * c := by
        have : ((i : ℚ) + 1) ≤ (j : ℚ) := by exact_mod_cast h
        exact (mul_le_mul_right hc).mpr this
      simp only [chunkRange] at hi2 hj1
      have := lt_of_lt_of_le hi2 (le_trans (min_le_left _ _) this)
      exact absurd hj1 (not_le.mpr this)
    · have : ((j : ℚ) + 1) * c ≤ (i : ℚ) * c := by
        have : ((j : ℚ) + 1) ≤ (i : ℚ) := by exact_mod_cast h
        exact (mul_le_mul_right hc).mpr this
      simp only [chunkRange] at hj2 hi1
      have := lt_of_lt_of_le hj2 (le_trans (min_le_left _ _) this)
      exact absurd hi1 (not_le.mpr this)

/-- Witness for C1 at the spec's own example: a 25-minute video with
10-minute nominal chunks (1500 s / 600 s) splits into 3 chunks
`[0,600) [600,1200) [1200,1500)`. -/
theorem split_video_tiling_witness :
    (0 : ℚ) < 600 ∧ (600 : ℚ) < 1500 ∧
    ((splitRanges 1500 600).length : ℤ) = ⌈(1500 : ℚ) / 600⌉ ∧
    splitRanges 1500 600 = [(0, 600), (600, 1200), (1200, 1500)] :=
  ⟨by norm_num, by norm_num,
    (split_video_tiling 1500 600 (by norm_num) (by norm_num)).2.1, by
      have hn : numChunks 1500 600 = 3 := by norm_num [numChunks]
      unfold splitRanges
      rw [if_neg (by norm_num), hn]
      simp [List.range_succ, chunkRange]
      norm_num⟩

/-- C8: for `0 < d ≤ c`, `split_video` returns a single range spanning the
whole video, and the descriptor built for it by `get_chunk_info` (index 0 of
1) has `is_first = is_last = true` and `total_chunks = 1`. -/
theorem split_video_single (d c : ℚ) (hdc : d ≤ c) :
    splitRanges d c = [(0, d)] ∧
    (getChunkInfo c d 0 1).is_first = true ∧
    (getChunkInfo c d 0 1).is_last = true ∧
    (getChunkInfo c d 0 1).total_chunks = 1 ∧
    (getChunkInfo c d 0 1).start_time_minutes = 0 ∧
    (getChunkInfo c d 0 1).end_time_minutes = d / 60 ∧
    (getChunkInfo c d 0 1).duration = d := by
  refine ⟨?_, ?_, ?_, rfl, ?_, ?_, rfl⟩
  · unfold splitRanges
    rw [if_pos hdc]
  · simp [getChunkInfo]
  · simp [getChunkInfo]
  · simp [getChunkInfo]
  · simp [getChunkInfo]

/-- Witness for C8: a 5-minute video with 10-minute nominal chunks. -/
theorem split_video_single_witness :
    (300 : ℚ) ≤ 600 ∧ splitRanges 300 600 = [(0, 300)] ∧
    (getChunkInfo 600 300 0 1).is_first = true ∧
    (getChunkInfo 600 300 0 1).is_last = true ∧
    (getChunkInfo 600 300 0 1).total_chunks = 1 :=
  ⟨by norm_num, (split_video_single 300 600 (by norm_num)).1,
    (split_video_single 300 600 (by norm_num)).2.1,
    (split_video_single 300 600 (by norm_num)).2.2.1,
    (split_video_single 300 600 (by norm_num)).2.2.2.1⟩

/-! ### Character and digit-string lemmas -/
theorem digitVal_digitChar {d : ℕ} (hd : d < 10) : digitVal? (digitChar d) = some d := by
  interval_cases d <;> rfl

theorem digit_cases {ch : Char} (h : isDigitC ch = true) :
    ch ∈ ['0', '1', '2', '3', '4', '5', '6', '7', '8', '9'] := by
  unfold isDigitC digitVal? at h
  by_cases hc : 48 ≤ ch.toNat ∧ ch.toNat ≤ 57
  · have hch : Char.ofNat ch.toNat = ch := Char.ofNat_toNat ch
    have hv : ch.toNat = 48 ∨ ch.toNat = 49 ∨ ch.toNat = 50 ∨ ch.toNat = 51 ∨
        ch.toNat = 52 ∨ ch.toNat = 53 ∨ ch.toNat = 54 ∨ ch.toNat = 55 ∨
        ch.toNat = 56 ∨ ch.toNat = 57 := by omega
    rcases hv with hv | hv | hv | hv | hv | hv | hv | hv | hv | hv <;>
      · rw [← hch, hv]
        decide
  · rw [if_neg hc] at h
    simp at h

theorem digit_char_facts {ch : Char} (h : isDigitC ch = true) :
    isPyWS ch = false ∧ ch ≠ ':' ∧ ch ≠ '-' ∧ ch ≠ '+' := by
  have := digit_cases h
  fin_cases this <;> refine ⟨rfl, by decide, by decide, by decide⟩

theorem tc_char_facts {ch : Char} (h : isDigitC ch = true ∨ ch = ':') :
    isPyWS ch = false ∧ ch ≠ '-' ∧ ch ≠ '–' ∧ ch ≠ '—' ∧ ch ≠ ' ' ∧
      ch ≠ '→' ∧ ch ≠ '>' := by
  rcases h with h | h
  · have := digit_cases h
    fin_cases this <;>
      refine ⟨rfl, by decide, by decide, by decide, by decide, by decide, by decide⟩
  · subst h
    refine ⟨rfl, by decide, by decide, by decide, by decide, by decide, by decide⟩

theorem digitsVal_append_singleton (xs : List Char) (c : Char) :
    digitsVal (xs ++ [c]) = 10 * digitsVal xs + (digitVal? c).getD 0 := by
  simp [digitsVal, List.foldl_append]

theorem digitsVal_zero_cons (l : List Char) : digitsVal ('0' :: l) = digitsVal l := by
  show List.foldl (fun a c => 10 * a + (digitVal? c).getD 0)
    (10 * 0 + (digitVal? '0').getD 0) l = _
  rw [show (10 * 0 + (digitVal? '0').getD 0 : ℕ) = 0 from rfl]
  rfl

theorem natDigitsAux_spec : ∀ fuel n : ℕ, n < fuel →
    natDigitsAux fuel n ≠ [] ∧ (∀ ch ∈ natDigitsAux fuel n, isDigitC ch = true) ∧
      digitsVal (natDigitsAux fuel n) = n := by
  intro fuel
  induction fuel with
  | zero => intro n h; omega
  | succ f ih =>
    intro n hn
    by_cases h10 : n < 10
    · simp only [natDigitsAux, if_pos h10]
      refine ⟨by simp, ?_, ?_⟩
      · intro ch hm
        rw [List.mem_singleton] at hm
        subst hm
        simp [isDigitC, digitVal_digitChar h10]
      · simp [digitsVal, digitVal_digitChar h10]
    · have hdiv : n / 10 < f := by
        have h1 : n / 10 < n := Nat.div_lt_self (by omega) (by norm_num)
        omega
      obtain ⟨hne, hdig, hval⟩ := ih (n / 10) hdiv
      simp only [natDigitsAux, if_neg h10]
      have hmod : n % 10 < 10 := Nat.mod_lt n (by norm_num)
      refine ⟨by simp, ?_, ?_⟩
      · intro ch hm
        rcases List.mem_append.mp hm with hm | hm
        · exact hdig ch hm
        · rw [List.mem_singleton] at hm
          subst hm
          simp [isDigitC, digitVal_digitChar hmod]
      · rw [digitsVal_append_singleton, hval, digitVal_digitChar hmod]
        simp
        omega

theorem pad2_spec (n : ℕ) : pad2 n ≠ [] ∧ (∀ ch ∈ pad2 n, isDigitC ch = true) ∧
    digitsVal (pad2 n) = n := by
  obtain ⟨hne, hdig, hval⟩ := natDigitsAux_spec (n + 1) n (by omega)
  unfold pad2 natDigits
  by_cases h10 : n < 10
  · rw [if_pos h10]
    refine ⟨by simp, ?_, ?_⟩
    · intro ch hm
      rcases List.mem_cons.mp hm with hm | hm
      · subst hm; rfl
      · exact hdig ch hm
    · rw [digitsVal_zero_cons, hval]
  · rw [if_neg h10]
    exact ⟨hne, hdig, hval⟩

/-! ### Sanitizer and splitter lemmas -/
theorem dropWhile_of_forall_false {p : Char → Bool} {s : List Char}
    (h : ∀ ch ∈ s, p ch = false) : s.dropWhile p = s := by
  cases s with
  | nil => rfl
  | cons a l => simp [List.dropWhile_cons, h a (by simp)]

theorem stripChars_eq_self {s : List Char} (h : ∀ ch ∈ s, isPyWS ch = false) :
    stripChars s = s := by
  unfold stripChars
  rw [dropWhile_of_forall_false h,
    dropWhile_of_forall_false (fun ch hm => h ch (List.mem_reverse.mp hm)),
    List.reverse_reverse]

theorem containsSub_eq_false {s0 : Char} {r s : List Char} (h : s0 ∉ s) :
    containsSub (s0 :: r) s = false := by
  induction s with
  | nil => rfl
  | cons c cs ih =>
    have hne : (s0 == c) = false := by
      simp only [beq_eq_false_iff_ne, ne_eq]
      intro he
      exact h (he ▸ List.mem_cons_self c cs)
    simp only [containsSub, Bool.or_eq_false_iff]
    exact ⟨by simp [List.isPrefixOf, hne], ih fun hm => h (List.mem_cons_of_mem c hm)⟩

theorem sanitizeTimecode_eq_self {s : List Char} (hne : s ≠ [])
    (h : ∀ ch ∈ s, isDigitC ch = true ∨ ch = ':') : sanitizeTimecode s = s := by
  have hws : ∀ ch ∈ s, isPyWS ch = false := fun ch hm => (tc_char_facts (h ch hm)).1
  have hnomem : ∀ c : Char,
      (c = '-' ∨ c = '–' ∨ c = '—' ∨ c = ' ' ∨ c = '→' ∨ c = '>') → c ∉ s := by
    intro c hc hm
    obtain ⟨_, h2, h3, h4, h5, h6, h7⟩ := tc_char_facts (h c hm)
    rcases hc with rfl | rfl | rfl | rfl | rfl | rfl <;> simp_all
  have hfind : rangeSeps.find? (fun sep => containsSub sep s) = none := by
    rw [List.find?_eq_none]
    intro sep hsep
    simp only [rangeSeps, List.mem_cons, List.not_mem_nil, or_false] at hsep
    rcases hsep with rfl | rfl | rfl | rfl | rfl | rfl | rfl <;>
      exact fun hcontra => by
        rw [containsSub_eq_false (hnomem _ (by simp))] at hcontra
        exact Bool.false_ne_true hcontra
  unfold sanitizeTimecode
  rw [if_neg (by simpa [List.isEmpty_iff] using hne), hfind]
  exact stripChars_eq_self hws

theorem splitOnChar_sepfree {sep : Char} {l : List Char} (h : ∀ ch ∈ l, ch ≠ sep) :
    splitOnChar sep l = [l] := by
  induction l with
  | nil => rfl
  | cons c cs ih =>
    simp only [splitOnChar, ih fun ch hm => h ch (List.mem_cons_of_mem c hm),
      if_neg (h c (List.mem_cons_self c cs))]
    rfl

theorem splitOnChar_append {sep : Char} {a rest : List Char}
    (h : ∀ ch ∈ a, ch ≠ sep) :
    splitOnChar sep (a ++ sep :: rest) = a :: splitOnChar sep rest := by
  induction a with
  | nil => simp [splitOnChar]
  | cons c a' ih =>
    have hrec := ih fun ch hm => h ch (List.mem_cons_of_mem c hm)
    have hc : c ≠ sep := h c (List.mem_cons_self c a')
    simp only [List.cons_append, splitOnChar, List.append_eq, hrec, if_neg hc,
      List.headD_cons, List.tail_cons]

/-! ### `int(float(·))` on pure digit strings -/
theorem takeWhile_of_forall {p : Char → Bool} {l : List Char}
    (h : ∀ ch ∈ l, p ch = true) : l.takeWhile p = l := by
  induction l with
  | nil => rfl
  | cons a t ih =>
    simp [List.takeWhile_cons, h a (by simp), ih fun ch hm => h ch (by simp [hm])]

theorem dropWhile_of_forall {p : Char → Bool} {l : List Char}
    (h : ∀ ch ∈ l, p ch = true) : l.dropWhile p = [] := by
  induction l with
  | nil => rfl
  | cons a t ih =>
    simp [List.dropWhile_cons, h a (by simp), ih fun ch hm => h ch (by simp [hm])]

theorem intFloat?_digits {ds : List Char} (hne : ds ≠ [])
    (h : ∀ ch ∈ ds, isDigitC ch = true) :
    intFloat? ds = some ((digitsVal ds : ℕ) : ℤ) := by
  obtain ⟨c, cs, rfl⟩ := List.exists_cons_of_ne_nil hne
  have hc := digit_char_facts (h c (List.mem_cons_self c cs))
  have hstrip : stripChars (c :: cs) = c :: cs :=
    stripChars_eq_self fun ch hm => (digit_char_facts (h ch hm)).1
  have hsign : parseSign (c :: cs) = (false, c :: cs) := by
    simp [parseSign, hc.2.2.1, hc.2.2.2]
  have htake : (c :: cs).takeWhile isDigitC = c :: cs := takeWhile_of_forall h
  have hdrop : (c :: cs).dropWhile isDigitC = [] := dropWhile_of_forall h
  unfold intFloat?
  rw [hstrip, hsign]
  simp only [htake, hdrop]
  have hfrac : parseFrac [] = ([], []) := rfl
  rw [hfrac]
  simp only [List.isEmpty_cons, List.isEmpty_nil, Bool.false_and, Bool.and_true,
    if_neg (Bool.false_ne_true)]
  have hexp : parseExp [] = some 0 := rfl
  rw [hexp]
  simp [truncVal, digitsVal]

/-- C2: `to_seconds (to_timecode s) = s` for every non-negative integer `s`,
including hour fields of three and more digits (e.g. 100 hours + 5 s =
360005 s renders as `"100:00:05"` and parses back). -/
theorem timecode_roundtrip :
    (∀ n : ℕ, timecode_to_seconds (seconds_to_timecode (n : ℤ)) = (n : ℤ)) ∧
    seconds_to_timecode 360005 = "100:00:05" ∧
    timecode_to_seconds "100:00:05" = 360005 := by
  refine ⟨?_, by decide, by decide⟩
  intro n
  obtain ⟨hne_h, hdig_h, hval_h⟩ := pad2_spec (n / 3600)
  obtain ⟨hne_m, hdig_m, hval_m⟩ := pad2_spec (n % 3600 / 60)
  obtain ⟨hne_s, hdig_s, hval_s⟩ := pad2_spec (n % 60)
  have hmax : (max 0 (n : ℤ)).toNat = n := by
    rw [max_eq_right (Int.natCast_nonneg n)]
    exact Int.toNat_natCast n
  have hL : (seconds_to_timecode (n : ℤ)).toList =
      pad2 (n / 3600) ++ (':' :: (pad2 (n % 3600 / 60) ++ (':' :: pad2 (n % 60)))) := by
    simp only [seconds_to_timecode, secondsToTimecodeL, hmax]
    rw [List.append_assoc, List.cons_append]
    rfl
  unfold timecode_to_seconds
  rw [hL]
  set A := pad2 (n / 3600) with hA
  set B := pad2 (n % 3600 / 60) with hB
  set C := pad2 (n % 60) with hC
  have hall : ∀ ch ∈ A ++ (':' :: (B ++ (':' :: C))), isDigitC ch = true ∨ ch = ':' := by
    intro ch hm
    rcases List.mem_append.mp hm with hm | hm
    · exact Or.inl (hdig_h ch hm)
    · rcases List.mem_cons.mp hm with hm | hm
      · exact Or.inr hm
      · rcases List.mem_append.mp hm with hm | hm
        · exact Or.inl (hdig_m ch hm)
        · rcases List.mem_cons.mp hm with hm | hm
          · exact Or.inr hm
          · exact Or.inl (hdig_s ch hm)
  have hnn : A ++ (':' :: (B ++ (':' :: C))) ≠ [] := fun hcontra =>
    hne_h (List.append_eq_nil.mp hcontra).1
  have hsplit : splitOnChar ':' (A ++ (':' :: (B ++ (':' :: C)))) = [A, B, C] := by
    rw [splitOnChar_append fun ch hm => (digit_char_facts (hdig_h ch hm)).2.1,
      splitOnChar_append fun ch hm => (digit_char_facts (hdig_m ch hm)).2.1,
      splitOnChar_sepfree fun ch hm => (digit_char_facts (hdig_s ch hm)).2.1]
  unfold timecodeToSecondsL
  rw [sanitizeTimecode_eq_self hnn hall, hsplit]
  simp only [intFloat?_digits hne_h hdig_h, intFloat?_digits hne_m hdig_m,
    intFloat?_digits hne_s hdig_s, Option.getD_some]
  rw [hval_h, hval_m, hval_s]
  omega

/-- C7: rebasing a chunk-relative timecode is exactly
`to_timecode (to_seconds tc + offset)`, and rebasing `"00:00:05"` by a
600-second chunk offset gives `"00:10:05"`. -/
theorem rebase_spec :
    (∀ (tc : String) (off : ℤ),
      rebase tc off = seconds_to_timecode (timecode_to_seconds tc + off)) ∧
    rebase "00:00:05" 600 = "00:10:05" :=
  ⟨fun _ _ => rfl, by decide⟩

/-- C9: the parse table of `timecode_to_seconds`: `hh:mm:ss` and `mm:ss`
forms, range inputs cut at the first separator (hyphen, the word `to`,
arrow), unparsable input giving 0, fractional seconds truncated. -/
theorem timecode_parse_table :
    timecode_to_seconds "01:02:03" = 3723 ∧
    timecode_to_seconds "02:05" = 125 ∧
    timecode_to_seconds "00:10:00-00:15:00" = 600 ∧
    timecode_to_seconds "garbage" = 0 ∧
    timecode_to_seconds "00:10:00 to 00:15:00" = 600 ∧
    timecode_to_seconds "00:10:00→00:15:00" = 600 ∧
    timecode_to_seconds "00:00:01.9" = 1 :=
  ⟨by decide, by decide, by decide, by decide, by decide, by decide, by decide⟩

/-- C10: `timecode_to_seconds` is total — every string (empty, many
colons, non-numeric) yields an integer, parse failures coercing to 0 —
and a colon-free numeric string is accepted as a plain count of seconds,
truncated. -/
theorem timecode_to_seconds_total :
    (∀ tc : String, ∃ z : ℤ, timecode_to_seconds tc = z) ∧
    timecode_to_seconds "90" = 90 ∧
    timecode_to_seconds "90.7" = 90 ∧
    timecode_to_seconds "" = 0 ∧
    timecode_to_seconds "::::" = 0 ∧
    timecode_to_seconds "1:2:3:4" = 1 ∧
    timecode_to_seconds "abc:def" = 0 :=
  ⟨fun tc => ⟨timecode_to_seconds tc, rfl⟩, by decide, by decide, by decide,
    by decide, by decide, by decide⟩

theorem geminiRetry_rl_segment {α : Type} (f : ℕ → GeminiOutcome α)
    (j : ℕ → ℚ) (maxRetries : ℕ) :
    ∀ a k : ℕ, a ≤ k → k ≤ maxRetries →
    (∀ i, a ≤ i → i < k → f i = .rateLimit) →
    geminiRetry f j maxRetries a =
      (((List.range' a (k - a)).map fun i => 2 ^ i * j i) ++
          (geminiRetry f j maxRetries k).1,
        (geminiRetry f j maxRetries k).2) := by
  suffices h : ∀ n a k, k - a = n → a ≤ k → k ≤ maxRetries →
      (∀ i, a ≤ i → i < k → f i = .rateLimit) →
      geminiRetry f j maxRetries a =
        (((List.range' a (k - a)).map fun i => 2 ^ i * j i) ++
            (geminiRetry f j maxRetries k).1,
          (geminiRetry f j maxRetries k).2) by
    intro a k hak hkm hrl
    exact h (k - a) a k rfl hak hkm hrl
  intro n
  induction n with
  | zero =>
    intro a k hn hak _ _
    have : a = k := by omega
    subst this
    simp
  | succ m ih =>
    intro a k hn hak hkm hrl
    have hlt : a < k := by omega
    have hfa : f a = .rateLimit := hrl a le_rfl hlt
    rw [geminiRetry, hfa]
    rw [dif_neg (by omega : ¬ maxRetries ≤ a)]
    have hrec := ih (a + 1) k (by omega) (by omega) hkm
      fun i hi1 hi2 => hrl i (by omega) hi2
    rw [hrec]
    have hrange : List.range' a (k - a) = a :: List.range' (a + 1) (k - (a + 1)) := by
      rw [show k - a = (k - (a + 1)) + 1 by omega]
      rfl
    rw [hrange]
    simp

theorem openrouterRetry_rl_segment {α : Type} (f : ℕ → OROutcome α)
    (j : ℕ → ℚ) (maxRetries : ℕ) :
    ∀ a k : ℕ, a ≤ k → k ≤ maxRetries →
    (∀ i, a ≤ i → i < k → f i = .err true) →
    openrouterRetry f j maxRetries a =
      (((List.range' a (k - a)).map fun i => 2 ^ i * j i) ++
          (openrouterRetry f j maxRetries k).1,
        (openrouterRetry f j maxRetries k).2) := by
  suffices h : ∀ n a k, k - a = n → a ≤ k → k ≤ maxRetries →
      (∀ i, a ≤ i → i < k → f i = .err true) →
      openrouterRetry f j maxRetries a =
        (((List.range' a (k - a)).map fun i => 2 ^ i * j i) ++
            (openrouterRetry f j maxRetries k).1,
          (openrouterRetry f j maxRetries k).2) by
    intro a k hak hkm hrl
    exact h (k - a) a k rfl hak hkm hrl
  intro n
  induction n with
  | zero =>
    intro a k hn hak _ _
    have : a = k := by omega
    subst this
    simp
  | succ m ih =>
    intro a k hn hak hkm hrl
    have hlt : a < k := by omega
    have hfa : f a = .err true := hrl a le_rfl hlt
    rw [openrouterRetry, hfa]
    simp only [dif_neg (by omega : ¬ maxRetries ≤ a), if_pos rfl]
    have hrec := ih (a + 1) k (by omega) (by omega) hkm
      fun i hi1 hi2 => hrl i (by omega) hi2
    rw [hrec]
    have hrange : List.range' a (k - a) = a :: List.range' (a + 1) (k - (a + 1)) := by
      rw [show k - a = (k - (a + 1)) + 1 by omega]
      rfl
    rw [hrange]
    simp

/-- Every sleep performed by the Gemini retry loop from attempt `a` on has
the form `2^b · j b` for the attempt `b < maxRetries` that failed before it. -/
theorem geminiRetry_delays {α : Type} (f : ℕ → GeminiOutcome α) (j : ℕ → ℚ)
    (maxRetries : ℕ) :
    ∀ a, ∀ d ∈ (geminiRetry f j maxRetries a).1,
      ∃ b, a ≤ b ∧ b < maxRetries ∧ d = 2 ^ b * j b := by
  suffices h : ∀ n a, maxRetries - a = n →
      ∀ d ∈ (geminiRetry f j maxRetries a).1,
        ∃ b, a ≤ b ∧ b < maxRetries ∧ d = 2 ^ b * j b by
    intro a
    exact h (maxRetries - a) a rfl
  intro n
  induction n with
  | zero =>
    intro a hn d hd
    rw [geminiRetry] at hd
    rcases hout : f a with v | _ | _ <;> rw [hout] at hd
    · simp at hd
    · rw [dif_pos (by omega)] at hd
      simp at hd
    · simp at hd
  | succ m ih =>
    intro a hn d hd
    rw [geminiRetry] at hd
    rcases hout : f a with v | _ | _ <;> rw [hout] at hd
    · simp at hd
    · rw [dif_neg (by omega : ¬ maxRetries ≤ a)] at hd
      simp only [List.mem_cons] at hd
      rcases hd with rfl | hd
      · exact ⟨a, le_rfl, by omega, rfl⟩
      · obtain ⟨b, hb1, hb2, hb3⟩ := ih (a + 1) (by omega) d hd
        exact ⟨b, by omega, hb2, hb3⟩
    · simp at hd

/-- C3: for both backend adapters, with `max_retries = 5`: six straight
rate-limit outcomes exhaust the attempts, perform the five backoff sleeps
`2^a · j a` (`a = 0..4`), and re-raise the rate-limit error; a non-rate-limit
outcome at any attempt `k` propagates immediately after only the `k` sleeps
of the preceding rate-limited attempts; success at attempt `k` returns the
value; and under the `random.uniform(0.5, 1.5)` jitter contract every sleep
of a Gemini run lies in `[2^a/2, 3·2^a/2)`. -/
theorem retry_backoff_policy :
    (∀ (α : Type) (f : ℕ → GeminiOutcome α) (j : ℕ → ℚ),
      (∀ i, i ≤ 5 → f i = .rateLimit) →
      retryWithBackoffGemini f j =
        ((List.range 5).map fun a => 2 ^ a * j a, .rateLimitRaised)) ∧
    (∀ (α : Type) (f : ℕ → GeminiOutcome α) (j : ℕ → ℚ) (k : ℕ), k ≤ 5 →
      f k = .other → (∀ i, i < k → f i = .rateLimit) →
      retryWithBackoffGemini f j =
        ((List.range k).map fun a => 2 ^ a * j a, .otherRaised)) ∧
    (∀ (α : Type) (f : ℕ → GeminiOutcome α) (j : ℕ → ℚ) (v : α) (k : ℕ), k ≤ 5 →
      f k = .ok v → (∀ i, i < k → f i = .rateLimit) →
      retryWithBackoffGemini f j =
        ((List.range k).map fun a => 2 ^ a * j a, .ok v)) ∧
    (∀ (α : Type) (f : ℕ → OROutcome α) (j : ℕ → ℚ),
      (∀ i, i ≤ 5 → f i = .err true) →
      retryWithBackoffOR f j =
        ((List.range 5).map fun a => 2 ^ a * j a, .rateLimitRaised)) ∧
    (∀ (α : Type) (f : ℕ → OROutcome α) (j : ℕ → ℚ) (k : ℕ), k ≤ 5 →
      f k = .err false → (∀ i, i < k → f i = .err true) →
      retryWithBackoffOR f j =
        ((List.range k).map fun a => 2 ^ a * j a, .otherRaised)) ∧
    (∀ (α : Type) (f : ℕ → OROutcome α) (j : ℕ → ℚ) (v : α) (k : ℕ), k ≤ 5 →
      f k = .ok v → (∀ i, i < k → f i = .err true) →
      retryWithBackoffOR f j =
        ((List.range k).map fun a => 2 ^ a * j a, .ok v)) ∧
    (∀ (α : Type) (f : ℕ → GeminiOutcome α) (j : ℕ → ℚ),
      (∀ i, 1 / 2 ≤ j i ∧ j i < 3 / 2) →
      ∀ d ∈ (retryWithBackoffGemini f j).1,
        ∃ a, a < 5 ∧ d = 2 ^ a * j a ∧ 2 ^ a / 2 ≤ d ∧ d < 3 * 2 ^ a / 2) := by
  refine ⟨?_, ?_, ?_, ?_, ?_, ?_, ?_⟩
  · intro α f j hall
    unfold retryWithBackoffGemini
    rw [geminiRetry_rl_segment f j 5 0 5 (by omega) le_rfl
      fun i h1 h2 => hall i (by omega)]
    have htail : geminiRetry f j 5 5 = ([], .rateLimitRaised) := by
      rw [geminiRetry, hall 5 le_rfl]
      rfl
    rw [htail]
    simp [List.range_eq_range']
  · intro α f j k hk5 hk hrl
    unfold retryWithBackoffGemini
    rw [geminiRetry_rl_segment f j 5 0 k (by omega) hk5
      fun i h1 h2 => hrl i h2]
    have htail : geminiRetry f j 5 k = ([], .otherRaised) := by
      rw [geminiRetry, hk]
    rw [htail]
    simp [List.range_eq_range']
  · intro α f j v k hk5 hk hrl
    unfold retryWithBackoffGemini
    rw [geminiRetry_rl_segment f j 5 0 k (by omega) hk5
      fun i h1 h2 => hrl i h2]
    have htail : geminiRetry f j 5 k = ([], .ok v) := by
      rw [geminiRetry, hk]
    rw [htail]
    simp [List.range_eq_range']
  · intro α f j hall
    unfold retryWithBackoffOR
    rw [openrouterRetry_rl_segment f j 5 0 5 (by omega) le_rfl
      fun i h1 h2 => hall i (by omega)]
    have htail : openrouterRetry f j 5 5 = ([], .rateLimitRaised) := by
      rw [openrouterRetry, hall 5 le_rfl]
      rfl
    rw [htail]
    simp [List.range_eq_range']
  · intro α f j k hk5 hk hrl
    unfold retryWithBackoffOR
    rw [openrouterRetry_rl_segment f j 5 0 k (by omega) hk5
      fun i h1 h2 => hrl i h2]
    have htail : openrouterRetry f j 5 k = ([], .otherRaised) := by
      rcases eq_or_lt_of_le hk5 with rfl | hlt
      · rw [openrouterRetry, hk]
        rfl
      · rw [openrouterRetry]
        simp only [hk]
        rw [dif_neg (by omega : ¬ (5 : ℕ) ≤ k)]
        rfl
    rw [htail]
    simp [List.range_eq_range']
  · intro α f j v k hk5 hk hrl
    unfold retryWithBackoffOR
    rw [openrouterRetry_rl_segment f j 5 0 k (by omega) hk5
      fun i h1 h2 => hrl i h2]
    have htail : openrouterRetry f j 5 k = ([], .ok v) := by
      rw [openrouterRetry, hk]
    rw [htail]
    simp [List.range_eq_range']
  · intro α f j hj d hd
    obtain ⟨b, _, hb5, hbd⟩ := geminiRetry_delays f j 5 0 d hd
    refine ⟨b, hb5, hbd, ?_, ?_⟩
    · have h1 : (0 : ℚ) ≤ 2 ^ b := by positivity
      have h2 := (hj b).1
      calc (2 : ℚ) ^ b / 2 = 2 ^ b * (1 / 2) := by ring
        _ ≤ 2 ^ b * j b := by
            exact mul_le_mul_of_nonneg_left h2 h1
        _ = d := hbd.symm
    · have h1 : (0 : ℚ) < 2 ^ b := by positivity
      have h2 := (hj b).2
      calc d = 2 ^ b * j b := hbd
        _ < 2 ^ b * (3 / 2) := by exact (mul_lt_mul_left h1).mpr h2
        _ = 3 * 2 ^ b / 2 := by ring

/-- Witness for C3: all-rate-limit runs of both adapters exhaust the six
attempts and re-raise; an immediate `other` failure on the Gemini adapter
propagates with no sleeps. -/
theorem retry_backoff_policy_witness :
    retryWithBackoffGemini (fun _ => (GeminiOutcome.rateLimit : GeminiOutcome Unit))
        (fun _ => 1) =
      ((List.range 5).map fun a => 2 ^ a * (1 : ℚ), .rateLimitRaised) ∧
    retryWithBackoffOR (fun _ => (OROutcome.err true : OROutcome Unit))
        (fun _ => 1) =
      ((List.range 5).map fun a => 2 ^ a * (1 : ℚ), .rateLimitRaised) ∧
    retryWithBackoffGemini (fun _ => (GeminiOutcome.other : GeminiOutcome Unit))
        (fun _ => 1) = ([], .otherRaised) := by
  refine ⟨retry_backoff_policy.1 Unit _ _ fun i _ => rfl,
    retry_backoff_policy.2.2.2.1 Unit _ _ fun i _ => rfl, ?_⟩
  have h := retry_backoff_policy.2.1 Unit
    (fun _ => (GeminiOutcome.other : GeminiOutcome Unit)) (fun _ => 1) 0
    (by omega) rfl fun i hi => absurd hi (by omega)
  simpa using h

theorem foldl_countStep_shift (l : List (Except String Unit)) :
    ∀ acc : ℕ × ℕ, l.foldl countStep acc =
      (acc.1 + (mainCounts l).1, acc.2 + (mainCounts l).2) := by
  induction l with
  | nil => intro acc; simp [mainCounts]
  | cons r t ih =>
    intro acc
    have h0 : mainCounts (r :: t) = t.foldl countStep (countStep (0, 0) r) := rfl
    rw [List.foldl_cons, ih (countStep acc r), h0, ih (countStep (0, 0) r)]
    rcases acc with ⟨s, fc⟩
    by_cases hr : processSingleVideo r <;> simp [countStep, hr] <;> omega

/-- C4: an exception while processing a video is caught at the
per-video boundary (`processSingleVideo` returns `False`, it does not
propagate); the batch loop still processes every later video — the counts
of a batch `pre ++ [failing] ++ post` are the counts of `pre`, plus one
failure, plus the counts of `post` — and succeeded + failed always equals
the number of videos processed. -/
theorem batch_failure_isolation :
    (∀ e : String, processSingleVideo (.error e) = false) ∧
    processSingleVideo (.ok ()) = true ∧
    (∀ bodies : List (Except String Unit),
      (mainCounts bodies).1 + (mainCounts bodies).2 = bodies.length) ∧
    (∀ (pre post : List (Except String Unit)) (e : String),
      mainCounts (pre ++ .error e :: post) =
        ((mainCounts pre).1 + (mainCounts post).1,
          (mainCounts pre).2 + 1 + (mainCounts post).2)) := by
  refine ⟨fun e => rfl, rfl, ?_, ?_⟩
  · intro bodies
    induction bodies with
    | nil => rfl
    | cons r t ih =>
      have h0 : mainCounts (r :: t) = t.foldl countStep (countStep (0, 0) r) := rfl
      rw [h0, foldl_countStep_shift]
      by_cases hr : processSingleVideo r <;>
        simp_all [countStep, hr] <;> omega
  · intro pre post e
    have h1 : mainCounts (pre ++ .error e :: post) =
        (Except.error e :: post).foldl countStep (mainCounts pre) := by
      unfold mainCounts
      rw [List.foldl_append]
    rw [h1, List.foldl_cons, foldl_countStep_shift]
    have h2 : countStep (mainCounts pre) (.error e) =
        ((mainCounts pre).1, (mainCounts pre).2 + 1) := rfl
    rw [h2]

/-- C6: a single chunk analysis is returned verbatim with zero backend
synthesis calls; two or more are concatenated into the labelled document,
formatted into the combine prompt, submitted exactly once, and the
backend's output is returned verbatim. -/
theorem combine_text_policy :
    (∀ (synth : String → String) (template x : String),
      finalAnalysisStep synth template [x] = (x, 0)) ∧
    (∀ (synth : String → String) (template : String) (xs : List String),
      1 < xs.length →
      finalAnalysisStep synth template xs =
        (synth (formatCombinePrompt template (chunkAnalysesText xs)), 1)) := by
  constructor
  · intro synth template x
    rfl
  · intro synth template xs h
    unfold finalAnalysisStep
    rw [if_pos h]
    rfl

/-- Witness for C6: one analysis passes through untouched with zero calls;
three analyses make exactly one synthesis call. -/
theorem combine_text_policy_witness :
    finalAnalysisStep (fun s => s) "t" ["a"] = ("a", 0) ∧
    finalAnalysisStep (fun s => s) "t" ["a", "b", "c"] =
      (formatCombinePrompt "t" (chunkAnalysesText ["a", "b", "c"]), 1) :=
  ⟨combine_text_policy.1 (fun s => s) "t" "a",
    combine_text_policy.2 (fun s => s) "t" ["a", "b", "c"] (by norm_num)⟩

/-! ### Fence-pattern lemmas for the extractor -/
theorem ciChar_backtick {c : Char} (h : ciChar '`' c = true) : c = '`' := by
  simp only [ciChar] at h
  rw [show ('`' == 'j') = false from rfl, show ('`' == 's') = false from rfl,
    show ('`' == 'o') = false from rfl, show ('`' == 'n') = false from rfl] at h
  simp at h
  exact h.symm

theorem ciStartsWith_refl_append : ∀ pat rest : List Char,
    ciStartsWith pat (pat ++ rest) = true := by
  intro pat
  induction pat with
  | nil => intro rest; rfl
  | cons p ps ih =>
    intro rest
    simp [ciStartsWith, ciChar, ih]

theorem splitAtFirstCI_skip {ps : List Char} : ∀ {p1 rest : List Char},
    '`' ∉ p1 →
    splitAtFirstCI ('`' :: ps) (p1 ++ rest) = splitAtFirstCI ('`' :: ps) rest := by
  intro p1
  induction p1 with
  | nil => intro rest _; rfl
  | cons c p1' ih =>
    intro rest h
    have hcc : ciChar '`' c = false := by
      cases hcc : ciChar '`' c with
      | false => rfl
      | true =>
        have : c = '`' := ciChar_backtick hcc
        subst this
        exact absurd (List.mem_cons_self _ _) h
    rw [List.cons_append, splitAtFirstCI]
    rw [show ciStartsWith ('`' :: ps) (c :: (p1' ++ rest)) = false by
      simp [ciStartsWith, hcc]]
    simp only [Bool.false_eq_true, if_false]
    exact ih fun hm => h (List.mem_cons_of_mem c hm)

theorem splitAtFirstCI_here (ps rest : List Char) :
    splitAtFirstCI ('`' :: ps) (('`' :: ps) ++ rest) = some rest := by
  rw [List.cons_append, splitAtFirstCI]
  rw [show ciStartsWith ('`' :: ps) ('`' :: (ps ++ rest)) = true from
    ciStartsWith_refl_append ('`' :: ps) rest]
  simp only [if_true]
  rw [show ('`' :: (ps ++ rest)).drop ('`' :: ps).length = rest from
    List.drop_left ('`' :: ps) rest]

theorem isPrefixOf_append_self : ∀ p r : List Char, p.isPrefixOf (p ++ r) = true := by
  intro p
  induction p with
  | nil => intro r; simp [List.isPrefixOf]
  | cons a p' ih => intro r; simp [List.isPrefixOf, ih]

theorem takeUntil_boundary {s0 : Char} {ps : List Char} : ∀ {a r : List Char},
    s0 ∉ a →
    takeUntil (s0 :: ps) (a ++ ((s0 :: ps) ++ r)) = some (a, r) := by
  intro a
  induction a with
  | nil =>
    intro r _
    rw [List.nil_append, List.cons_append, takeUntil]
    rw [show (s0 :: ps).isPrefixOf (s0 :: (ps ++ r)) = true from
      isPrefixOf_append_self (s0 :: ps) r]
    simp only [if_true]
    rw [show (s0 :: (ps ++ r)).drop (s0 :: ps).length = r from
      List.drop_left (s0 :: ps) r]
  | cons c a' ih =>
    intro r h
    have hne : (s0 == c) = false := by
      simp only [beq_eq_false_iff_ne, ne_eq]
      intro he
      exact h (he ▸ List.mem_cons_self c a')
    rw [List.cons_append, takeUntil]
    rw [show (s0 :: ps).isPrefixOf (c :: (a' ++ ((s0 :: ps) ++ r))) = false by
      simp [List.isPrefixOf, hne]]
    simp only [Bool.false_eq_true, if_false]
    rw [ih fun hm => h (List.mem_cons_of_mem c hm)]
    rfl

theorem fence1_structured {p1 o p2 : List Char} (h1 : '`' ∉ p1) (h2 : '`' ∉ o) :
    fence1Candidate
      (p1 ++ ("```json".toList ++ (o ++ ("```".toList ++ p2)))) =
      some (stripChars o) := by
  unfold fence1Candidate
  have hpat : "```json".toList = '`' :: ['`', '`', 'j', 's', 'o', 'n'] := rfl
  have hcl : "```".toList = '`' :: ['`', '`'] := rfl
  rw [hpat, hcl]
  rw [splitAtFirstCI_skip h1]
  rw [splitAtFirstCI_here ['`', '`', 'j', 's', 'o', 'n'] (o ++ (('`' :: ['`', '`']) ++ p2))]
  show (takeUntil ('`' :: ['`', '`']) (o ++ (('`' :: ['`', '`']) ++ p2))).map
    (fun p => stripChars p.1) = some (stripChars o)
  rw [show (takeUntil ('`' :: ['`', '`']) (o ++ (('`' :: ['`', '`']) ++ p2))) =
    some (o, p2) from takeUntil_boundary h2]
  rfl

/-- C5 counterexample: the claim fails on the code in two ways.  First, a
fenced `` ```json `` block holding `{"key_frames": 0}` — a mapping whose
`key_frames` is *not* a list — is still returned (the code checks only
`isinstance(data, dict) and "key_frames" in data`).  Second, for the text
`` ```json x``` ```json {"key_frames": [{"t": 1}]}``` `` the extractor
returns nothing even though the text contains a fenced block holding an
object with a `key_frames` list (the first fence match captures `x`, the
unmarked-fence match captures `json x`, and the lazy brace scan cuts the
nested object at its first `}`), so the payload is not returned
"regardless of surrounding prose". -/
theorem extract_key_frames_claim_fails :
    ((extractKeyFramesJson "```json\n\x7b\"key_frames\": 0\x7d\n```").map
      fun j => (J.keyFramesValue? j).map J.isArr) = some (some false) ∧
    (extractKeyFramesJson
      "```json x``` ```json \x7b\"key_frames\": [\x7b\"t\": 1\x7d]\x7d```").isNone
      = true ∧
    ((loadsJ (stripChars " \x7b\"key_frames\": [\x7b\"t\": 1\x7d]\x7d".toList)).map
      fun j => (J.keyFramesValue? j).map J.isArr) = some (some true) :=
  ⟨by decide, by decide, by decide⟩

/-- C5 (amended): `extract_key_frames_json` tries the three strategies in
order and returns the first successfully decoded object whose top level is
a mapping containing a `key_frames` key, regardless of that value's type;
decode failures are swallowed and the next strategy tried; when nothing
succeeds it returns `none`.  A text whose only backticks are a single
`` ```json `` fence holding a decodable object with a `key_frames` key
yields that object's payload regardless of the surrounding prose. -/
theorem extract_key_frames_spec :
    (∀ (p1 o p2 : List Char) (kvs : List (List Char × J)),
      '`' ∉ p1 → '`' ∉ o →
      loadsJ (stripChars o) = some (J.obj kvs) →
      (kvs.any fun kv => kv.1 == "key_frames".toList) = true →
      extractKeyFramesJson
        (String.mk (p1 ++ ("```json".toList ++ (o ++ ("```".toList ++ p2))))) =
        some (J.obj kvs)) ∧
    extractKeyFramesJson "```json\n\x7b\"key_frames\": 0\x7d\n```" =
      some (J.obj [("key_frames".toList, J.num false 0 0)]) ∧
    extractKeyFramesJson "```json\nnot json\n```\nsee \x7b\"key_frames\": []\x7d end" =
      some (J.obj [("key_frames".toList, J.arr [])]) ∧
    extractKeyFramesJson "no json here" = none := by
  refine ⟨?_, rfl, rfl, rfl⟩
  intro p1 o p2 kvs h1 h2 hload hkey
  have hcc : checkCandidate (stripChars o) = some (J.obj kvs) := by
    unfold checkCandidate
    rw [hload]
    show (if (kvs.any fun kv => kv.1 == "key_frames".toList) = true
      then some (J.obj kvs) else none) = some (J.obj kvs)
    rw [if_pos hkey]
  have ha1 : fenceAttempt (fence1Candidate
      (p1 ++ ("```json".toList ++ (o ++ ("```".toList ++ p2))))) =
      some (J.obj kvs) := by
    rw [fence1_structured h1 h2]
    exact hcc
  unfold extractKeyFramesJson
  rw [show (String.mk (p1 ++ ("```json".toList ++ (o ++ ("```".toList ++ p2))))).toList =
    p1 ++ ("```json".toList ++ (o ++ ("```".toList ++ p2))) from rfl]
  simp only [ha1]

/-- Witness for C5 (amended): concrete prose around a fenced payload whose
`key_frames` is not a list; the payload is returned. -/
theorem extract_key_frames_spec_witness :
    (('`' : Char) ∉ "see ".toList) ∧
    extractKeyFramesJson (String.mk ("see ".toList ++ ("```json".toList ++
      (" \x7b\"key_frames\": 0\x7d ".toList ++ ("```".toList ++ " done".toList))))) =
      some (J.obj [("key_frames".toList, J.num false 0 0)]) :=
  ⟨by decide,
    extract_key_frames_spec.1 "see ".toList " \x7b\"key_frames\": 0\x7d ".toList
      " done".toList [("key_frames".toList, J.num false 0 0)]
      (by decide) (by decide) rfl rfl⟩

end VideoAnalyzer
